import Mathlib

/-
Shallow embedding of jkusniar/go-log (src/log.go), an asynchronous
level-filtered logger. Pure data and state live in Lean structures; the
ambient effects of the Go code are passed explicitly:
  * `time.Now()` becomes a `now : String` parameter (the entry only ever
    renders the timestamp through the `%v` verb, so the rendered form is
    what the model carries);
  * `runtime.Caller(3)` becomes a `caller : Option (String × Int)`
    parameter (`none` models the `!ok` branch);
  * `fmt.Sprint(v...)` / `fmt.Sprintf(format, v...)` of the variadic
    arguments become a `msg : String` parameter holding the already
    formatted message;
  * a channel send `l.entries <- e` becomes appending `e` to the FIFO
    list `entries` (capacity/blocking is not modelled);
  * `panic(x)` in `New` becomes `Except.error`, and in `Panic`/`Panicf`
    the panicked value is returned alongside the new state;
  * the writer `io.WriteCloser` is `Option W` for an abstract sink type
    `W`; `nil` is `none`.
The mutex discipline of the Go code is modelled separately as a list of
shared-field accesses per operation, each tagged with whether the access
happens while `l.mutex` is held.
-/

/- Log level output indicator strings (src/log.go lines 20-25). -/

def labelDebug : String := "DEBUG"

def labelInfo : String := "INFO"

def labelWarn : String := "WARN"

def labelError : String := "ERROR"

/- Supported log levels, `uint8` iota (src/log.go lines 28-33).
Levels are modelled as `Nat`; the Go values are the range 0..255. -/

def LevelError : Nat := 0

def LevelWarn : Nat := 1

def LevelInfo : Nat := 2

def LevelDebug : Nat := 3

/-- The `logEntry` struct (src/log.go lines 243-249). `Time` carries the
`%v` rendering of the captured `time.Time`. -/
structure logEntry where
  Level : String
  Message : String
  Filename : String
  Line : Int
  Time : String
deriving DecidableEq, Repr

/-- The `Logger` struct (src/log.go lines 39-45) minus the mutex (the
locking discipline is modelled by the access traces below). `entries` is
the FIFO content of the channel, `done` whether the done channel was
signalled. -/
structure Logger (W : Type) where
  entries : List logEntry
  done : Bool
  writer : Option W
  minLevel : Nat
deriving DecidableEq, Repr

/-- `callerInfo`'s basename loop (src/log.go lines 300-305):
`for i := len(file) - 1; i > 0; i--`, returning the largest index
`i ≥ 1` (never index 0) whose character is a slash. -/
def findLastSlashFrom (cs : List Char) : Nat → Option Nat
  | 0 => none
  | i + 1 => if cs.getD (i + 1) ' ' = '/' then some (i + 1) else findLastSlashFrom cs i

/-- `callerInfo` (src/log.go lines 291-309). The `runtime.Caller(3)`
result is the explicit `resolved` input; `none` is the `!ok` branch,
which substitutes the placeholder `"???.go"`, line 0. The loop result
`some i` yields `file[i+1:]`. -/
def callerInfo (resolved : Option (String × Int)) : String × Int :=
  let fl := match resolved with
    | some r => r
    | none => ("???.go", (0 : Int))
  let cs := fl.1.toList
  let short := match findLastSlashFrom cs (cs.length - 1) with
    | some i => (cs.drop (i + 1)).asString
    | none => fl.1
  (short, fl.2)

/-- `createLogEntry` (src/log.go lines 278-288); `msg` is
`fmt.Sprint(v...)`, `now` the captured time, `caller` the
`runtime.Caller` result consumed by `callerInfo`. -/
def createLogEntry (level msg : String) (caller : Option (String × Int)) (now : String) : logEntry :=
  let fl := callerInfo caller
  { Level := level, Message := msg, Filename := fl.1, Line := fl.2, Time := now }

/-- `createLogEntryf` (src/log.go lines 265-275); identical to
`createLogEntry` once `fmt.Sprintf(format, v...)` is abstracted into
`msg`. -/
def createLogEntryf (level msg : String) (caller : Option (String × Int)) (now : String) : logEntry :=
  let fl := callerInfo caller
  { Level := level, Message := msg, Filename := fl.1, Line := fl.2, Time := now }

/-- `fmt.Sprintf` restricted to what `logEntry.String` needs: each `%v`
verb in the format is replaced by the next argument, every other
character is copied. -/
def substVerbs : List Char → List String → String
  | [], _ => ""
  | '%' :: 'v' :: rest, a :: as => a ++ substVerbs rest as
  | '%' :: 'v' :: rest, [] => "%!v(MISSING)" ++ substVerbs rest []
  | c :: rest, as => String.singleton c ++ substVerbs rest as

/-- The Stringer implementation `logEntry.String` (src/log.go lines
252-262): format bytes `"[%v] [%v:%v] [%v] %v"`, a `'\n'` appended to
the format when the message is empty or its last byte is not `'\n'`,
then `fmt.Sprintf` over time, filename, line, level, message. -/
def logEntry.string (e : logEntry) : String :=
  let format := "[%v] [%v:%v] [%v] %v".toList
  let format := if e.Message.length == 0 || !(e.Message.toList.getD (e.Message.length - 1) ' ' == '\n') then format ++ ['\n'] else format
  substVerbs format [e.Time, e.Filename, toString e.Line, e.Level, e.Message]

/-- `New` (src/log.go lines 50-66). The out-of-range panic is the
`Except.error` branch carrying the panic message; otherwise the fresh
`Logger` with an empty channel. -/
def New {W : Type} (w : Option W) (l : Nat) : Except String (Logger W) :=
  if l > LevelDebug then
    Except.error ("Log level " ++ toString l ++ ", but maximum allowed is " ++ toString LevelDebug)
  else
    Except.ok { entries := [], done := false, writer := w, minLevel := l }

/-- `canLog` (src/log.go lines 97-101): the entry is writable when
`l.minLevel >= level && l.writer != nil`. -/
def Logger.canLog {W : Type} (l : Logger W) (level : Nat) : Bool :=
  decide (l.minLevel ≥ level) && l.writer.isSome

/-- `SetLevel` (src/log.go lines 105-114): returns without change when
`level > LevelDebug`, otherwise replaces `minLevel`. -/
def Logger.SetLevel {W : Type} (l : Logger W) (level : Nat) : Logger W :=
  if level > LevelDebug then l
  else { l with minLevel := level }

/-- `Debug` (src/log.go lines 118-122). -/
def Logger.Debug {W : Type} (l : Logger W) (msg : String) (caller : Option (String × Int)) (now : String) : Logger W :=
  if l.canLog LevelDebug then { l with entries := l.entries ++ [createLogEntry labelDebug msg caller now] } else l

/-- `Debugf` (src/log.go lines 126-130). -/
def Logger.Debugf {W : Type} (l : Logger W) (msg : String) (caller : Option (String × Int)) (now : String) : Logger W :=
  if l.canLog LevelDebug then { l with entries := l.entries ++ [createLogEntryf labelDebug msg caller now] } else l

/-- `Info` (src/log.go lines 134-138). -/
def Logger.Info {W : Type} (l : Logger W) (msg : String) (caller : Option (String × Int)) (now : String) : Logger W :=
  if l.canLog LevelInfo then { l with entries := l.entries ++ [createLogEntry labelInfo msg caller now] } else l

/-- `Infof` (src/log.go lines 142-146). -/
def Logger.Infof {W : Type} (l : Logger W) (msg : String) (caller : Option (String × Int)) (now : String) : Logger W :=
  if l.canLog LevelInfo then { l with entries := l.entries ++ [createLogEntryf labelInfo msg caller now] } else l

/-- `Warn` (src/log.go lines 150-154). -/
def Logger.Warn {W : Type} (l : Logger W) (msg : String) (caller : Option (String × Int)) (now : String) : Logger W :=
  if l.canLog LevelWarn then { l with entries := l.entries ++ [createLogEntry labelWarn msg caller now] } else l

/-- `Warnf` (src/log.go lines 158-162). -/
def Logger.Warnf {W : Type} (l : Logger W) (msg : String) (caller : Option (String × Int)) (now : String) : Logger W :=
  if l.canLog LevelWarn then { l with entries := l.entries ++ [createLogEntryf labelWarn msg caller now] } else l

/-- `Error` (src/log.go lines 166-170). -/
def Logger.Error {W : Type} (l : Logger W) (msg : String) (caller : Option (String × Int)) (now : String) : Logger W :=
  if l.canLog LevelError then { l with entries := l.entries ++ [createLogEntry labelError msg caller now] } else l

/-- `Errorf` (src/log.go lines 174-178). -/
def Logger.Errorf {W : Type} (l : Logger W) (msg : String) (caller : Option (String × Int)) (now : String) : Logger W :=
  if l.canLog LevelError then { l with entries := l.entries ++ [createLogEntryf labelError msg caller now] } else l

/-- `Panic` (src/log.go lines 183-191): always builds the entry, sends
it only when admitted, then panics with `entry.Message`. The second
component is the panicked value. -/
def Logger.Panic {W : Type} (l : Logger W) (msg : String) (caller : Option (String × Int)) (now : String) : Logger W × String :=
  let entry := createLogEntry labelError msg caller now
  (if l.canLog LevelError then { l with entries := l.entries ++ [entry] } else l, entry.Message)

/-- `Panicf` (src/log.go lines 196-203). -/
def Logger.Panicf {W : Type} (l : Logger W) (msg : String) (caller : Option (String × Int)) (now : String) : Logger W × String :=
  let entry := createLogEntryf labelError msg caller now
  (if l.canLog LevelError then { l with entries := l.entries ++ [entry] } else l, entry.Message)

/-- `DebugEnabled` (src/log.go lines 227-229): a bare read of
`l.minLevel`, no admission of the writer. -/
def Logger.DebugEnabled {W : Type} (l : Logger W) : Bool :=
  decide (l.minLevel ≥ LevelDebug)

/-- `InfoEnabled` (src/log.go lines 232-234). -/
def Logger.InfoEnabled {W : Type} (l : Logger W) : Bool :=
  decide (l.minLevel ≥ LevelInfo)

/-- `WarnEnabled` (src/log.go lines 237-239). -/
def Logger.WarnEnabled {W : Type} (l : Logger W) : Bool :=
  decide (l.minLevel ≥ LevelWarn)

/- Access-trace model of the locking discipline: which reads/writes of
the shared fields `minLevel` and `writer` each operation performs, and
whether `l.mutex` is held at that access. -/

inductive SharedField where
  | minLevelF
  | writerF
deriving DecidableEq, Repr

inductive AccessKind where
  | readA
  | writeA
deriving DecidableEq, Repr

structure Access where
  field : SharedField
  kind : AccessKind
  underMutex : Bool
deriving DecidableEq, Repr

/-- `canLog` reads `minLevel` and `writer` between `l.mutex.Lock()` and
the deferred `Unlock` (src/log.go lines 97-101). -/
def canLogAccesses : List Access :=
  [⟨SharedField.minLevelF, AccessKind.readA, true⟩,
   ⟨SharedField.writerF, AccessKind.readA, true⟩]

/-- `SetLevel` writes `minLevel` under the mutex, and performs no shared
access at all on the out-of-range early return (src/log.go lines
105-114). -/
def setLevelAccesses (level : Nat) : List Access :=
  if level > LevelDebug then []
  else [⟨SharedField.minLevelF, AccessKind.writeA, true⟩]

/-- `DebugEnabled` reads `l.minLevel` directly, without taking
`l.mutex` (src/log.go lines 227-229). -/
def debugEnabledAccesses : List Access :=
  [⟨SharedField.minLevelF, AccessKind.readA, false⟩]

/-- `InfoEnabled` reads `l.minLevel` without the mutex (src/log.go
lines 232-234). -/
def infoEnabledAccesses : List Access :=
  [⟨SharedField.minLevelF, AccessKind.readA, false⟩]

/-- `WarnEnabled` reads `l.minLevel` without the mutex (src/log.go
lines 237-239). -/
def warnEnabledAccesses : List Access :=
  [⟨SharedField.minLevelF, AccessKind.readA, false⟩]

/-- `Shutdown` reads `l.writer` (nil check and `Close`) without taking
`l.mutex` (src/log.go lines 86-93). -/
def shutdownAccesses : List Access :=
  [⟨SharedField.writerF, AccessKind.readA, false⟩]

/-- Every access of the trace happens while the mutex is held. -/
def allUnderMutex (t : List Access) : Bool :=
  t.all (fun a => a.underMutex)

/-- The effect a per-level submission method has on the state: exactly
one entry appended to the queue when admitted, the queue untouched when
not, and the remaining fields unchanged either way. -/
def submits {W : Type} (l l2 : Logger W) (admitted : Bool) (e : logEntry) : Prop :=
  l2.entries = (if admitted then l.entries ++ [e] else l.entries)
  ∧ l2.done = l.done ∧ l2.writer = l.writer ∧ l2.minLevel = l.minLevel

/-- Modelled from the spec: the final path segment, `the substring after
the last '/'` of the caller's file path (spec section 4.3). Used only to
compare `callerInfo`'s actual behaviour against the spec's words. -/
def specFinalSegment (s : String) : String :=
  ((s.toList.reverse.takeWhile (fun c => c ≠ '/')).reverse).asString

/- Helper lemmas shared by the claim theorems. -/

theorem submits_ite {W : Type} (l : Logger W) (e : logEntry) (b : Bool) :
    submits l (if b then { l with entries := l.entries ++ [e] } else l) b e := by
  cases b <;> simp [submits]

theorem msg_newline_cond (s : String) :
    (s.length = 0 ∨ ¬ s.data[s.length - 1]?.getD ' ' = '\n')
      ↔ ¬ (s.data.getLast? = some '\n') := by
  have h : s.length = s.data.length := rfl
  rw [h]
  rcases s.data.eq_nil_or_concat with h2 | ⟨l2, c, h2⟩ <;> rw [h2] <;>
    simp [List.getLast?_concat, List.getElem?_append_right]

/-- C1: for every level, `canLog` holds exactly when `minLevel ≥ level`
and the writer is present; each of the eight per-level submission
methods appends exactly one entry to the queue when its level's `canLog`
holds and leaves the whole state unchanged when it does not. -/
theorem canLog_gates_submission {W : Type} (l : Logger W) (msg : String)
    (caller : Option (String × Int)) (now : String) :
    (∀ level : Nat, l.canLog level = true ↔ (l.minLevel ≥ level ∧ l.writer.isSome = true))
    ∧ submits l (l.Debug msg caller now) (l.canLog LevelDebug) (createLogEntry labelDebug msg caller now)
    ∧ submits l (l.Debugf msg caller now) (l.canLog LevelDebug) (createLogEntryf labelDebug msg caller now)
    ∧ submits l (l.Info msg caller now) (l.canLog LevelInfo) (createLogEntry labelInfo msg caller now)
    ∧ submits l (l.Infof msg caller now) (l.canLog LevelInfo) (createLogEntryf labelInfo msg caller now)
    ∧ submits l (l.Warn msg caller now) (l.canLog LevelWarn) (createLogEntry labelWarn msg caller now)
    ∧ submits l (l.Warnf msg caller now) (l.canLog LevelWarn) (createLogEntryf labelWarn msg caller now)
    ∧ submits l (l.Error msg caller now) (l.canLog LevelError) (createLogEntry labelError msg caller now)
    ∧ submits l (l.Errorf msg caller now) (l.canLog LevelError) (createLogEntryf labelError msg caller now) := by
  refine ⟨fun level => ?_, ?_, ?_, ?_, ?_, ?_, ?_, ?_, ?_⟩
  · simp [Logger.canLog]
  all_goals exact submits_ite ..

/-- C3: `SetLevel` with an in-range level replaces `minLevel` and
touches nothing else; with an out-of-range level it leaves the whole
state unchanged, surfacing no error. -/
theorem setLevel_frame {W : Type} (l : Logger W) (level : Nat) :
    (l.SetLevel level).minLevel = (if level ≤ LevelDebug then level else l.minLevel)
    ∧ (l.SetLevel level).entries = l.entries
    ∧ (l.SetLevel level).done = l.done
    ∧ (l.SetLevel level).writer = l.writer
    ∧ (LevelDebug < level → l.SetLevel level = l) := by
  unfold Logger.SetLevel
  by_cases h : LevelDebug < level
  · simp [h, Nat.not_le.mpr h]
  · simp [h, Nat.not_lt.mp h]

/-- C4: `New` fails exactly when the requested level exceeds
`LevelDebug`; otherwise it returns the logger whose writer and
`minLevel` are the arguments (a `none` writer included) and whose
queue is empty. -/
theorem new_level_check {W : Type} (w : Option W) (l : Nat) :
    ((New w l).isOk = true ↔ l ≤ LevelDebug)
    ∧ (New w l).toOption
        = (if l ≤ LevelDebug
            then some { entries := [], done := false, writer := w, minLevel := l }
            else none) := by
  unfold New
  by_cases h : LevelDebug < l
  · simp [h, Nat.not_le.mpr h, Except.isOk, Except.toBool, Except.toOption]
  · simp [h, Nat.not_lt.mp h, Except.isOk, Except.toBool, Except.toOption]

/-- C7: `Panic` and `Panicf` always panic with the constructed entry's
formatted message, and the entry reaches the queue exactly when
`canLog LevelError` holds, with the rest of the state unchanged. -/
theorem panic_always_raises {W : Type} (l : Logger W) (msg : String)
    (caller : Option (String × Int)) (now : String) :
    (l.Panic msg caller now).2 = msg
    ∧ (l.Panic msg caller now).2 = (createLogEntry labelError msg caller now).Message
    ∧ submits l (l.Panic msg caller now).1 (l.canLog LevelError) (createLogEntry labelError msg caller now)
    ∧ (l.Panicf msg caller now).2 = msg
    ∧ (l.Panicf msg caller now).2 = (createLogEntryf labelError msg caller now).Message
    ∧ submits l (l.Panicf msg caller now).1 (l.canLog LevelError) (createLogEntryf labelError msg caller now) := by
  refine ⟨rfl, rfl, ?_, rfl, rfl, ?_⟩ <;> exact submits_ite ..

/-- C8: each `IsEnabled` query answers exactly the comparison of
`minLevel` against its level, and all the accesses these queries make
are reads (they mutate nothing). -/
theorem enabled_queries_readonly {W : Type} (l : Logger W) :
    (l.DebugEnabled = true ↔ l.minLevel ≥ LevelDebug)
    ∧ (l.InfoEnabled = true ↔ l.minLevel ≥ LevelInfo)
    ∧ (l.WarnEnabled = true ↔ l.minLevel ≥ LevelWarn)
    ∧ ((debugEnabledAccesses ++ infoEnabledAccesses ++ warnEnabledAccesses).all
        (fun a => a.kind == AccessKind.readA) = true) := by
  refine ⟨?_, ?_, ?_, by decide⟩ <;>
    simp [Logger.DebugEnabled, Logger.InfoEnabled, Logger.WarnEnabled]

/-- C10: the `IsEnabled` queries depend only on `minLevel`, never on the
writer: with a `none` writer they can still answer true while `canLog`
is false at every level and every emit call leaves the state unchanged. -/
theorem enabled_ignores_sink {W : Type} (l : Logger W) (msg : String)
    (caller : Option (String × Int)) (now : String) :
    (l.writer = none →
      (l.DebugEnabled = true ↔ l.minLevel ≥ LevelDebug)
      ∧ l.canLog LevelDebug = false ∧ l.canLog LevelInfo = false
      ∧ l.canLog LevelWarn = false ∧ l.canLog LevelError = false
      ∧ l.Debug msg caller now = l ∧ l.Info msg caller now = l
      ∧ l.Warn msg caller now = l ∧ l.Error msg caller now = l)
    ∧ (∀ l2 : Logger W, l2.minLevel = l.minLevel →
        l2.DebugEnabled = l.DebugEnabled ∧ l2.InfoEnabled = l.InfoEnabled
        ∧ l2.WarnEnabled = l.WarnEnabled) := by
  constructor
  · intro h
    have hc : ∀ lv, l.canLog lv = false := fun lv => by simp [Logger.canLog, h]
    refine ⟨by simp [Logger.DebugEnabled], hc _, hc _, hc _, hc _, ?_, ?_, ?_, ?_⟩ <;>
      simp [Logger.Debug, Logger.Info, Logger.Warn, Logger.Error, hc]
  · intro l2 h
    simp [Logger.DebugEnabled, Logger.InfoEnabled, Logger.WarnEnabled, h]

/-- C9: in the access-trace model of the locking discipline, `canLog`
and `SetLevel` touch the shared fields only under the mutex, but the
three `IsEnabled` queries read `minLevel`, and `Shutdown` reads the
writer, without holding it: the code does not keep every shared-field
access under the lock. -/
theorem enabled_and_shutdown_bypass_mutex :
    allUnderMutex canLogAccesses = true
    ∧ (∀ lv : Nat, allUnderMutex (setLevelAccesses lv) = true)
    ∧ allUnderMutex debugEnabledAccesses = false
    ∧ allUnderMutex infoEnabledAccesses = false
    ∧ allUnderMutex warnEnabledAccesses = false
    ∧ allUnderMutex shutdownAccesses = false := by
  refine ⟨rfl, fun lv => ?_, rfl, rfl, rfl, rfl⟩
  unfold setLevelAccesses
  split <;> rfl

/-- C2: a logger obtained from a successful `New`, then mutated by any
finite sequence of `SetLevel` calls, keeps `minLevel ≤ LevelDebug`;
`New` refuses a larger level and `SetLevel` ignores one. -/
theorem minLevel_never_exceeds_max {W : Type} (w : Option W) (linit : Nat)
    (lg : Logger W) (ls : List Nat) (h : New w linit = Except.ok lg) :
    (ls.foldl Logger.SetLevel lg).minLevel ≤ LevelDebug
    ∧ (∀ bad : Nat, LevelDebug < bad →
        (New (W := W) w bad).isOk = false ∧ ∀ st : Logger W, st.SetLevel bad = st) := by
  constructor
  · have hb : lg.minLevel ≤ LevelDebug := by
      unfold New at h
      by_cases hl : LevelDebug < linit
      · simp [hl] at h
      · simp [hl] at h
        rw [← h]
        exact Nat.not_lt.mp hl
    clear h
    induction ls generalizing lg with
    | nil => exact hb
    | cons a as ih =>
        apply ih
        unfold Logger.SetLevel
        split
        · exact hb
        · simpa using Nat.not_lt.mp (by assumption)
  · intro bad hbad
    constructor
    · unfold New
      simp [hbad, Except.isOk, Except.toBool]
    · intro st
      unfold Logger.SetLevel
      simp [hbad]

/-- Witness for C2 at a concrete run: `New none 0` succeeds and the
level stays in range across `SetLevel 5`, `SetLevel 2`, `SetLevel 300`. -/
theorem minLevel_never_exceeds_max_witness :
    (([5, 2, 300].foldl Logger.SetLevel
        ({ entries := [], done := false, writer := none, minLevel := 0 } : Logger Unit)).minLevel
      ≤ LevelDebug) :=
  (minLevel_never_exceeds_max (W := Unit) none 0
    { entries := [], done := false, writer := none, minLevel := 0 } [5, 2, 300] rfl).1

/-- C5: the rendered entry line is
`[<timestamp>] [<file>:<line>] [<LEVEL>] <message>`, with exactly one
newline appended when the message (the empty message included) does not
already end in `'\n'`, and none appended when it does. -/
theorem rendered_line_format (e : logEntry) :
    e.string = "[" ++ e.Time ++ "] [" ++ e.Filename ++ ":" ++ toString e.Line ++ "] ["
      ++ e.Level ++ "] " ++ e.Message
      ++ (if e.Message.data.getLast? = some '\n' then "" else "\n") := by
  unfold logEntry.string
  by_cases h : e.Message.data.getLast? = some '\n'
  · have hcond : ¬ (e.Message.length = 0
        ∨ ¬ e.Message.data[e.Message.length - 1]?.getD ' ' = '\n') :=
      fun hl => ((msg_newline_cond e.Message).mp hl) h
    simp [hcond, h, substVerbs, String.append_assoc, String.append_empty]
    try rfl
  · have hcond := (msg_newline_cond e.Message).mpr h
    simp [hcond, h, substVerbs, String.append_assoc, String.append_empty]
    try rfl

theorem findLastSlashFrom_none (cs : List Char) (i : Nat) :
    findLastSlashFrom cs i = none ↔ ∀ k, 1 ≤ k → k ≤ i → cs.getD k ' ' ≠ '/' := by
  induction i with
  | zero =>
    simp only [findLastSlashFrom]
    constructor
    · intro _ k h1 h0
      exact absurd (Nat.le_trans h1 h0) (by omega)
    · intro _
      trivial
  | succ n ih =>
    unfold findLastSlashFrom
    by_cases h : cs.getD (n + 1) ' ' = '/'
    · rw [if_pos h]
      constructor
      · intro hc
        exact absurd hc (by simp)
      · intro hall
        exact absurd h (hall (n + 1) (by omega) (Nat.le_refl _))
    · rw [if_neg h, ih]
      constructor
      · intro hall k h1 h2
        rcases Nat.lt_or_ge k (n + 1) with hk | hk
        · exact hall k h1 (by omega)
        · have : k = n + 1 := by omega
          rw [this]
          exact h
      · intro hall k h1 h2
        exact hall k h1 (by omega)

theorem findLastSlashFrom_some (cs : List Char) (i j : Nat)
    (h : findLastSlashFrom cs i = some j) :
    1 ≤ j ∧ j ≤ i ∧ cs.getD j ' ' = '/' ∧ ∀ k, j < k → k ≤ i → cs.getD k ' ' ≠ '/' := by
  induction i with
  | zero => simp [findLastSlashFrom] at h
  | succ n ih =>
    unfold findLastSlashFrom at h
    by_cases hc : cs.getD (n + 1) ' ' = '/'
    · rw [if_pos hc] at h
      have hj : j = n + 1 := by
        cases h
        rfl
      subst hj
      refine ⟨by omega, Nat.le_refl _, hc, ?_⟩
      intro k hk1 hk2
      exact absurd (Nat.lt_of_lt_of_le hk1 hk2) (by omega)
    · rw [if_neg hc] at h
      obtain ⟨h1, h2, h3, h4⟩ := ih h
      refine ⟨h1, by omega, h3, ?_⟩
      intro k hjk hkn
      rcases Nat.lt_or_ge k (n + 1) with hk | hk
      · exact h4 k hjk (by omega)
      · have : k = n + 1 := by omega
        rw [this]
        exact hc

theorem mem_drop_iff_getD (cs : List Char) (m : Nat) (c : Char) :
    c ∈ cs.drop m ↔ ∃ k, m ≤ k ∧ k < cs.length ∧ cs.getD k ' ' = c := by
  constructor
  · intro h
    rw [List.mem_iff_getElem?] at h
    obtain ⟨i, hi⟩ := h
    rw [List.getElem?_drop] at hi
    have hlt : m + i < cs.length := by
      by_contra hge
      rw [List.getElem?_eq_none (by omega)] at hi
      exact Option.noConfusion hi
    refine ⟨m + i, by omega, hlt, ?_⟩
    rw [List.getD_eq_getElem?_getD, hi]
    rfl
  · rintro ⟨k, h1, h2, h3⟩
    rw [List.mem_iff_getElem?]
    refine ⟨k - m, ?_⟩
    rw [List.getElem?_drop]
    have hmk : m + (k - m) = k := by omega
    rw [hmk]
    rw [List.getD_eq_getElem?_getD, List.getElem?_eq_getElem h2] at h3
    rw [List.getElem?_eq_getElem h2]
    simp only [Option.getD_some] at h3
    rw [h3]

theorem takeWhile_append_all {α : Type} (p : α → Bool) (l1 l2 : List α)
    (h : ∀ a ∈ l1, p a = true) :
    (l1 ++ l2).takeWhile p = l1 ++ l2.takeWhile p := by
  induction l1 with
  | nil => simp
  | cons a as ih =>
    have ha := h a (by simp)
    simp only [List.cons_append, List.takeWhile_cons, ha, if_pos rfl]
    rw [ih (fun x hx => h x (by simp [hx]))]
    simp

/-- C6 counterexample: for the resolvable path "/main.go", whose only
slash is at index 0, `callerInfo` returns the whole path, not the final
path segment after the last slash. -/
theorem callerInfo_keeps_leading_slash :
    (callerInfo (some ("/main.go", 7))).1 = "/main.go"
    ∧ specFinalSegment "/main.go" = "main.go"
    ∧ (callerInfo (some ("/main.go", 7))).1 ≠ specFinalSegment "/main.go" := by
  decide

/-- C6 amended: when a resolvable path has a slash at some index other
than 0, `callerInfo` returns the substring after the last slash, which
contains no slash; when every slash (if any) sits at index 0, the path
is returned unchanged; an unresolvable caller yields the placeholder
`"???.go"` with line 0, and the line of a resolvable caller is passed
through. -/
theorem callerInfo_strips_directory (p : String) (n : Int) :
    callerInfo none = ("???.go", 0)
    ∧ (callerInfo (some (p, n))).2 = n
    ∧ (if '/' ∈ p.toList.drop 1
        then (callerInfo (some (p, n))).1 = specFinalSegment p
             ∧ '/' ∉ (callerInfo (some (p, n))).1.toList
        else (callerInfo (some (p, n))).1 = p) := by
  refine ⟨rfl, rfl, ?_⟩
  by_cases hmem : '/' ∈ p.toList.drop 1
  · rw [if_pos hmem]
    cases hfind : findLastSlashFrom p.toList (p.toList.length - 1) with
    | none =>
        exfalso
        obtain ⟨k, h1, h2, h3⟩ := (mem_drop_iff_getD p.toList 1 '/').mp hmem
        exact (findLastSlashFrom_none p.toList _).mp hfind k h1 (by omega) h3
    | some j =>
        obtain ⟨h1, h2, h3, h4⟩ := findLastSlashFrom_some p.toList _ j hfind
        have hjlen : j < p.toList.length := by
          by_contra hge
          rw [List.getD_eq_getElem?_getD, List.getElem?_eq_none (by omega)] at h3
          exact absurd h3 (by simp)
        have hres : (callerInfo (some (p, n))).1 = (p.toList.drop (j + 1)).asString := by
          simp only [callerInfo, hfind]
        have hnos : '/' ∉ p.toList.drop (j + 1) := by
          intro hm
          obtain ⟨k, hk1, hk2, hk3⟩ := (mem_drop_iff_getD p.toList (j + 1) '/').mp hm
          exact h4 k (by omega) (by omega) hk3
        have hsplit : p.toList = p.toList.take j ++ '/' :: p.toList.drop (j + 1) := by
          have hd : p.toList.drop j = '/' :: p.toList.drop (j + 1) := by
            rw [List.drop_eq_getElem_cons hjlen]
            congr 1
            rw [List.getD_eq_getElem?_getD, List.getElem?_eq_getElem hjlen] at h3
            simpa using h3
          rw [← hd, List.take_append_drop]
        have hspec : specFinalSegment p = (p.toList.drop (j + 1)).asString := by
          unfold specFinalSegment
          congr 1
          conv_lhs => rw [hsplit]
          rw [List.reverse_append, List.reverse_cons, List.append_assoc]
          rw [takeWhile_append_all _ _ _ ?hall]
          case hall =>
            intro a ha
            rw [List.mem_reverse] at ha
            simp only [decide_eq_true_eq]
            intro hEq
            exact hnos (hEq ▸ ha)
          simp
        rw [hres, hspec]
        refine ⟨rfl, ?_⟩
        show '/' ∉ (p.toList.drop (j + 1)).asString.toList
        have : (p.toList.drop (j + 1)).asString.toList = p.toList.drop (j + 1) := rfl
        rw [this]
        exact hnos
  · rw [if_neg hmem]
    cases hfind : findLastSlashFrom p.toList (p.toList.length - 1) with
    | some j =>
        exfalso
        obtain ⟨h1, h2, h3, h4⟩ := findLastSlashFrom_some p.toList _ j hfind
        have hjlen : j < p.toList.length := by
          by_contra hge
          rw [List.getD_eq_getElem?_getD, List.getElem?_eq_none (by omega)] at h3
          exact absurd h3 (by simp)
        exact hmem ((mem_drop_iff_getD p.toList 1 '/').mpr ⟨j, h1, hjlen, h3⟩)
    | none =>
        simp only [callerInfo, hfind]
